import Mathlib

/-!
Verification of the shared ingestion/query pipeline and benchmark driver of
the vectordb-comparison service (FastAPI + pgvector + ChromaDB).

Python text values are modelled as `List Char`, Python ints as `Int`/`Nat`,
and Python floats as `ℚ` where only field arithmetic occurs and as `ℝ` where
a square root is required (L2 normalization).  Every network interaction is
modelled by an explicit oracle argument so that the control flow of the
source is a pure function of the oracle's answers.
-/

namespace Spec2Proof

/-! ## Python string helpers (src/app/utils.py) -/

/-- Model of Python `str.strip()`: removes leading and trailing whitespace. -/
def pyStrip (s : List Char) : List Char :=
  ((s.dropWhile Char.isWhitespace).reverse.dropWhile Char.isWhitespace).reverse

theorem pyStrip_nil : pyStrip [] = [] := rfl

theorem pyStrip_ne_nil_of {s : List Char} (h : pyStrip s ≠ []) : s ≠ [] := by
  intro hs; subst hs; exact h pyStrip_nil

/-! ## Chunker (src/app/utils.py, `chunk_text`)

The `while start < n` loop of `chunk_text` is embedded with an explicit fuel
counter; `none` means the fuel ran out before the loop finished, so a result
of `some` for every sufficiently large fuel is exactly termination of the
Python loop.  Python's `max(0, end - overlap)` is `Nat` subtraction. -/

/-- One-to-one embedding of the `while` loop of `chunk_text`:
at state `start`, emit `t[start:end]` for `end = min n (start+chunkSize)`,
stop if `end = n`, else continue from `end - overlap`. -/
def chunkLoopF (t : List Char) (chunkSize overlap : Nat) :
    Nat → Nat → Option (List (List Char))
  | 0, _ => none
  | fuel + 1, start =>
    if start < t.length then
      let e := min t.length (start + chunkSize)
      let c := (t.drop start).take (e - start)
      if e = t.length then some [c]
      else (chunkLoopF t chunkSize overlap fuel (e - overlap)).map (c :: ·)
    else some []

/-- `chunk_text(text, chunk_size, overlap)`: strips the text, then runs the
window loop from `start = 0`.  Fuel `length + 1` is enough for every
terminating run (proved in `chunk_text_terminates`); the `none` fallback is
never taken when `overlap < chunk_size`. -/
def chunk_text (text : List Char) (chunkSize overlap : Nat) : List (List Char) :=
  let t := pyStrip text
  (chunkLoopF t chunkSize overlap (t.length + 1) 0).getD []

example : chunk_text (('a').toString.toList ++ [' ']) 2 1 = [['a']] := by decide
example :
    chunk_text ['a', 'b', 'c', 'd', 'e'] 3 1 = [['a', 'b', 'c'], ['c', 'd', 'e']] := by
  decide
example : chunk_text [' ', ' '] 3 1 = [] := by decide
example :
    chunk_text ['a', 'b', 'c', 'd', 'e', 'f'] 3 1
      = [['a', 'b', 'c'], ['c', 'd', 'e'], ['e', 'f']] := by decide

/-- Invariant of the `chunk_text` window loop: under `0 < chunk_size` and
`overlap < chunk_size` the loop terminates and its output is the list of
slices of a chain of windows starting at `start`, ending at `t.length`,
each of width `chunk_size` (clipped at the end of the text), consecutive
windows restarting exactly `overlap` characters before the previous end. -/
theorem chunkLoop_spec (t : List Char) (cs ov : Nat) (hov : ov < cs) :
    ∀ fuel start, start < t.length → t.length - start ≤ fuel →
    ∃ ivs : List (Nat × Nat),
      chunkLoopF t cs ov fuel start
          = some (ivs.map (fun p => (t.drop p.1).take (p.2 - p.1))) ∧
      ivs.head? = some (start, min t.length (start + cs)) ∧
      ivs.getLast?.map Prod.snd = some t.length ∧
      (∀ p ∈ ivs, p.2 = min t.length (p.1 + cs) ∧ p.1 < t.length) ∧
      List.Chain' (fun p q => p.2 = p.1 + cs ∧ p.2 < t.length ∧
        q.1 = p.2 - ov ∧ q.2 = min t.length (q.1 + cs)) ivs ∧
      (∀ j, start ≤ j → j < t.length → ∃ p ∈ ivs, p.1 ≤ j ∧ j < p.2) := by
  intro fuel
  induction fuel with
  | zero => intro start h1 h2; omega
  | succ fuel ih =>
    intro start h1 h2
    by_cases he : min t.length (start + cs) = t.length
    · refine ⟨[(start, min t.length (start + cs))], ?_, rfl, ?_, ?_, ?_, ?_⟩
      · simp [chunkLoopF, h1, he]
      · simp [he]
      · intro p hp
        simp only [List.mem_singleton] at hp
        subst hp
        exact ⟨rfl, h1⟩
      · exact List.chain'_singleton _
      · intro j hj1 hj2
        exact ⟨(start, min t.length (start + cs)), List.mem_singleton.mpr rfl,
          hj1, by omega⟩
    · have hlt : start + cs < t.length := by omega
      have he' : min t.length (start + cs) = start + cs := by omega
      obtain ⟨ivs', hrun, hhead, hlast, hmem, hchain, hcov⟩ :=
        ih (start + cs - ov) (by omega) (by omega)
      cases ivs' with
      | nil => simp at hhead
      | cons q l =>
        have hq : q = (start + cs - ov, min t.length (start + cs - ov + cs)) := by
          simpa using hhead
        refine ⟨(start, start + cs) :: q :: l, ?_, ?_, ?_, ?_, ?_, ?_⟩
        · have hne : start + cs ≠ t.length := by omega
          have hrun' : chunkLoopF t cs ov (fuel + 1) start
              = (chunkLoopF t cs ov fuel (start + cs - ov)).map
                  ((t.drop start).take (start + cs - start) :: ·) := by
            simp [chunkLoopF, h1, he', hne]
          rw [hrun', hrun]
          simp
        · simp [he']
        · rw [List.getLast?_cons_cons]
          exact hlast
        · intro p hp
          rcases List.mem_cons.mp hp with hp | hp
          · subst hp; exact ⟨by omega, h1⟩
          · exact hmem p hp
        · rw [List.chain'_cons]
          refine ⟨?_, hchain⟩
          refine ⟨rfl, hlt, ?_, ?_⟩
          · rw [hq]
          · rw [hq]
        · intro j hj1 hj2
          by_cases hje : j < start + cs
          · exact ⟨(start, start + cs), List.mem_cons_self _ _, hj1, hje⟩
          · obtain ⟨p, hp, hp1, hp2⟩ := hcov j (by omega) hj2
            exact ⟨p, List.mem_cons_of_mem _ hp, hp1, hp2⟩

/-- C3: for every text, every `chunk_size > 0` and every
`0 ≤ overlap < chunk_size`: an empty trimmed text yields zero chunks;
otherwise the chunks are the slices of a list of windows over the trimmed
text whose first window starts at 0, whose last window ends at the end of
the text, which jointly cover every character position, and in which every
adjacent pair of windows overlaps by exactly `overlap` characters
(`p.2 - q.1 = overlap` with the overlap region contained in both windows) —
in particular the claim's weaker "except possibly the last pair" holds. -/
theorem chunk_text_covers_and_overlaps (text : List Char) (cs ov : Nat)
    (hcs : 0 < cs) (hov : ov < cs) :
    (pyStrip text = [] → chunk_text text cs ov = []) ∧
    (pyStrip text ≠ [] → ∃ ivs : List (Nat × Nat),
      chunk_text text cs ov
        = ivs.map (fun p => ((pyStrip text).drop p.1).take (p.2 - p.1)) ∧
      ivs.head?.map Prod.fst = some 0 ∧
      ivs.getLast?.map Prod.snd = some (pyStrip text).length ∧
      (∀ j, j < (pyStrip text).length → ∃ p ∈ ivs, p.1 ≤ j ∧ j < p.2) ∧
      List.Chain' (fun p q => p.2 - q.1 = ov ∧ p.1 ≤ q.1 ∧ q.1 ≤ p.2 ∧ p.2 ≤ q.2)
        ivs) := by
  constructor
  · intro h
    simp [chunk_text, h, chunkLoopF]
  · intro h
    have hpos : 0 < (pyStrip text).length := List.length_pos.mpr h
    obtain ⟨ivs, hrun, hhead, hlast, hmem, hchain, hcov⟩ :=
      chunkLoop_spec (pyStrip text) cs ov hov ((pyStrip text).length + 1) 0 hpos
        (by omega)
    refine ⟨ivs, ?_, ?_, hlast, ?_, ?_⟩
    · simp only [chunk_text]
      rw [hrun]
      rfl
    · rw [hhead]; rfl
    · intro j hj
      exact hcov j (Nat.zero_le _) hj
    · refine hchain.imp ?_
      intro p q hR
      obtain ⟨h1, h2, h3, h4⟩ := hR
      refine ⟨by omega, by omega, by omega, by omega⟩

/-- Witness for `chunk_text_covers_and_overlaps` at
`text = "abc"`, `chunk_size = 2`, `overlap = 1`. -/
theorem chunk_text_covers_and_overlaps_witness :
    0 < 2 ∧ 1 < 2 ∧ pyStrip ['a', 'b', 'c'] ≠ [] ∧
    (∃ ivs : List (Nat × Nat),
      chunk_text ['a', 'b', 'c'] 2 1
        = ivs.map (fun p => ((pyStrip ['a', 'b', 'c']).drop p.1).take (p.2 - p.1)) ∧
      ivs.head?.map Prod.fst = some 0 ∧
      ivs.getLast?.map Prod.snd = some (pyStrip ['a', 'b', 'c']).length ∧
      (∀ j, j < (pyStrip ['a', 'b', 'c']).length → ∃ p ∈ ivs, p.1 ≤ j ∧ j < p.2) ∧
      List.Chain' (fun p q => p.2 - q.1 = 1 ∧ p.1 ≤ q.1 ∧ q.1 ≤ p.2 ∧ p.2 ≤ q.2)
        ivs) :=
  ⟨by decide, by decide, by decide,
    (chunk_text_covers_and_overlaps ['a', 'b', 'c'] 2 1 (by decide)
      (by decide)).2 (by decide)⟩

/-- C10: under `0 < chunk_size` and `overlap < chunk_size` the window loop of
`chunk_text` terminates for every input (any fuel larger than the number of
remaining characters suffices, because the window start strictly increases
on every non-final iteration: `next start = previous end − overlap >
previous start`); without `overlap < chunk_size` the loop need not
terminate — on text `"ab"` with `chunk_size = overlap = 1` it runs out of
any amount of fuel. -/
theorem chunk_loop_termination :
    (∀ (t : List Char) (cs ov : Nat), 0 < cs → ov < cs →
      (∀ fuel start, t.length - start < fuel →
        (chunkLoopF t cs ov fuel start).isSome) ∧
      (∀ start, start < t.length → min t.length (start + cs) ≠ t.length →
        start < min t.length (start + cs) - ov)) ∧
    (∀ fuel, chunkLoopF ['a', 'b'] 1 1 fuel 0 = none) := by
  constructor
  · intro t cs ov hcs hov
    constructor
    · intro fuel
      induction fuel with
      | zero => intro start h; omega
      | succ fuel ih =>
        intro start h
        by_cases h1 : start < t.length
        · by_cases he : min t.length (start + cs) = t.length
          · simp [chunkLoopF, h1, he]
          · have hlt : start + cs < t.length := by omega
            have he' : min t.length (start + cs) = start + cs := by omega
            have hne : start + cs ≠ t.length := by omega
            have hrec := ih (start + cs - ov) (by omega)
            obtain ⟨r, hr⟩ := Option.isSome_iff_exists.mp hrec
            simp only [chunkLoopF, if_pos h1, he', if_neg hne, hr]
            rfl
        · simp [chunkLoopF, h1]
    · intro start h1 he
      omega
  · intro fuel
    induction fuel with
    | zero => rfl
    | succ fuel ih =>
      show (chunkLoopF ['a', 'b'] 1 1 fuel (min 2 (0 + 1) - 1)).map _ = none
      simp only [show min 2 (0 + 1) - 1 = 0 by decide, ih]
      rfl

/-- Witness for `chunk_loop_termination`: with `chunk_size = 2`,
`overlap = 1` the loop on `"abc"` finishes within fuel 4. -/
theorem chunk_loop_termination_witness :
    0 < 2 ∧ 1 < 2 ∧ (chunkLoopF ['a', 'b', 'c'] 2 1 4 0).isSome :=
  ⟨by decide, by decide,
    (chunk_loop_termination.1 ['a', 'b', 'c'] 2 1 (by decide) (by decide)).1 4 0
      (by decide)⟩

/-- With enough fuel the loop's result is independent of the fuel, so
`chunk_text`'s fuel `length + 1` computes the loop's true value. -/
theorem chunk_text_terminates (text : List Char) (cs ov : Nat) (hcs : 0 < cs)
    (hov : ov < cs) :
    (chunkLoopF (pyStrip text) cs ov ((pyStrip text).length + 1) 0).isSome :=
  (chunk_loop_termination.1 (pyStrip text) cs ov hcs hov).1 _ 0 (by omega)

/-! ## Progress protocol (src/app/benchmark_streaming.py, `run_benchmark`)

Progress marker lines `"[PROGRESS] phase|current_run|total_runs|sub_progress|message"`
are decoded by the driver's stdout reader.  Python floats are modelled
as `ℚ`. -/

/-- The overall percentage computed by the progress parser:
`((current_run - 1 + sub_progress) / total_runs) * 100` when
`total_runs > 0`, else `0`. -/
def overall_progress_pct (current_run total_runs : ℤ) (sub_progress : ℚ) : ℚ :=
  if 0 < total_runs then
    ((current_run : ℚ) - 1 + sub_progress) / (total_runs : ℚ) * 100
  else 0

/-- C2: the overall progress percentage equals
`((current_run − 1 + sub_progress) / total_runs) × 100` whenever
`total_runs > 0`, equals `0` when `total_runs = 0`, and in particular
`current_run = 3, total_runs = 10, sub_progress = 0.5` gives `25`. -/
theorem overall_progress_pct_spec :
    (∀ (c t : ℤ) (s : ℚ), 0 < t →
      overall_progress_pct c t s = ((c : ℚ) - 1 + s) / (t : ℚ) * 100) ∧
    (∀ (c : ℤ) (s : ℚ), overall_progress_pct c 0 s = 0) ∧
    overall_progress_pct 3 10 (1 / 2) = 25 := by
  refine ⟨?_, ?_, ?_⟩
  · intro c t s ht
    simp [overall_progress_pct, ht]
  · intro c s
    simp [overall_progress_pct]
  · norm_num [overall_progress_pct]

/-- Witness for `overall_progress_pct_spec` at `3, 10, 0.5`. -/
theorem overall_progress_pct_spec_witness :
    (0 : ℤ) < 10 ∧
    overall_progress_pct 3 10 (1 / 2) = (((3 : ℤ) : ℚ) - 1 + 1 / 2) / ((10 : ℤ) : ℚ) * 100 :=
  ⟨by norm_num, overall_progress_pct_spec.1 3 10 (1 / 2) (by norm_num)⟩

/-- Model of Python `s.split(sep, maxsplit)` for a one-character separator:
split at the first `maxsplit` occurrences, the last part absorbing the
rest. -/
def splitLimit (sep : Char) : Nat → List Char → List (List Char)
  | 0, cs => [cs]
  | n + 1, cs =>
    if sep ∈ cs then
      cs.takeWhile (· ≠ sep) :: splitLimit sep n ((cs.dropWhile (· ≠ sep)).tail)
    else [cs]

example :
    splitLimit '|' 4 ((r"p|1|10|0.5|a|b").toList)
      = [['p'], ['1'], ['1', '0'], ['0', '.', '5'], ['a', '|', 'b']] := by decide

/-- Value of a digit string (`0` on the empty string). -/
def digitsVal (cs : List Char) : Nat :=
  cs.foldl (fun a c => a * 10 + (c.toNat - 48)) 0

/-- A non-empty all-digit string, or `none`. -/
def digitsVal? (cs : List Char) : Option Nat :=
  if !cs.isEmpty && cs.all Char.isDigit then some (digitsVal cs) else none

/-- Model of Python `int(str)`: surrounding whitespace stripped, optional
sign, at least one digit (underscore digit grouping is not modelled). -/
def pyParseInt (s : List Char) : Option ℤ :=
  match pyStrip s with
  | '+' :: rest => (digitsVal? rest).map (fun n => (n : ℤ))
  | '-' :: rest => (digitsVal? rest).map (fun n => -(n : ℤ))
  | t => (digitsVal? t).map (fun n => (n : ℤ))

/-- Unsigned decimal: `digits`, `digits.digits`, `digits.` or `.digits`. -/
def parseUFloat (cs : List Char) : Option ℚ :=
  let intPart := cs.takeWhile (· ≠ '.')
  match cs.dropWhile (· ≠ '.') with
  | [] => (digitsVal? intPart).map (fun n => (n : ℚ))
  | '.' :: frac =>
    if (!intPart.isEmpty || !frac.isEmpty) && intPart.all Char.isDigit
        && frac.all Char.isDigit then
      some ((digitsVal intPart : ℚ) + (digitsVal frac : ℚ) / 10 ^ frac.length)
    else none
  | _ => none

/-- Model of Python `float(str)` on the decimal forms the progress protocol
uses: optional whitespace/sign, decimal digits with an optional point
(exponent notation, `inf` and `nan` are not modelled). -/
def pyParseFloat (s : List Char) : Option ℚ :=
  match pyStrip s with
  | '+' :: rest => parseUFloat rest
  | '-' :: rest => (parseUFloat rest).map (fun q => -q)
  | t => parseUFloat t

example : (pyParseFloat ((r"0.5").toList)).isSome := by decide
example : pyParseFloat ((r"x5").toList) = none := by decide
example : pyParseInt ((r" 42").toList) = some 42 := by decide
example : pyParseInt ((r"4x").toList) = none := by decide

/-- One result row loaded from the benchmark CSV in `run_benchmark`. -/
structure ResultRow where
  api_name : List Char
  api_category : List Char
  run_number : ℤ
  num_chunks : ℤ
  embed_ms : ℚ
  pg_write_ms : ℚ
  chroma_write_ms : ℚ
  pg_query_ms : ℚ
  chroma_query_ms : ℚ
  pg_result_count : ℤ
  chroma_result_count : ℤ
  db_size_pg_mb : ℚ
  db_size_chroma_mb : ℚ
deriving DecidableEq

/-- The run-registry entry created by `start_benchmark` and mutated only by
`run_benchmark`; fields that are added during the run (`sub_progress`,
`overall_progress_pct`, `phase`, `last_update`, `last_message`, `error`,
`completed_at`) are materialized here with the defaults under which the
code reads them. -/
structure BenchmarkState where
  status : List Char
  runs : ℤ
  categories : List (List Char)
  started_at : List Char
  results : List ResultRow
  current_progress : ℤ
  total_runs : ℤ
  sub_progress : ℚ
  overall_progress_pct : ℚ
  phase : List Char
  last_update : List Char
  last_message : List Char
  error : List Char
  completed_at : List Char
deriving DecidableEq

/-- The ten characters of the structured progress marker. -/
def progressMarker : List Char :=
  ['[', 'P', 'R', 'O', 'G', 'R', 'E', 'S', 'S', ']']

/-- The legacy textual marker recognized for backward compatibility. -/
def legacyMarker : List Char := ['🔄', ' ', 'R', 'u', 'n', ' ']

/-- `needle in hay` on Python strings. -/
def hasSubstr (needle hay : List Char) : Bool :=
  (List.range (hay.length + 1)).any fun i => needle.isPrefixOf (hay.drop i)

/-- Model of Python `round(x, 1)`. -/
def roundTo1 (q : ℚ) : ℚ := ((round (q * 10) : ℤ) : ℚ) / 10

/-- Decoding of the payload after the `[PROGRESS]` marker: strip, split on
`|` at most 4 times, require exactly 5 parts, `current_run`/`total_runs`
integers and `sub_progress` a float. -/
def parseProgress (body : List Char) :
    Option (List Char × ℤ × ℤ × ℚ × List Char) :=
  match splitLimit '|' 4 (pyStrip body) with
  | [phase, cr, tr, sp, msg] =>
    match pyParseInt cr, pyParseInt tr, pyParseFloat sp with
    | some c, some t, some s => some (phase, c, t, s, msg)
    | _, _, _ => none
  | _ => none

/-- The per-stdout-line state update of `run_benchmark`: a decodable
`[PROGRESS]` line updates the progress fields, a legacy `"🔄 Run "` line
increments `current_progress`, anything else (including a malformed
`[PROGRESS]` line, whose decoding error is logged) leaves the state as it
was.  `now` is the current `datetime.utcnow().isoformat()`. -/
def processLine (now : List Char) (st : BenchmarkState) (line : List Char) :
    BenchmarkState :=
  let ls := pyStrip line
  if ls.take 10 = progressMarker then
    match parseProgress (ls.drop 10) with
    | some (phase, c, t, s, msg) =>
      { st with current_progress := c
              , sub_progress := s
              , overall_progress_pct := roundTo1 (overall_progress_pct c t s)
              , phase := phase
              , last_update := now
              , last_message := msg }
    | none => st
  else if hasSubstr legacyMarker ls then
    { st with current_progress := st.current_progress + 1
            , last_update := now
            , last_message := ls }
  else st

/-- C6: a stdout line that starts with the progress marker but fails a
decoding check — not exactly 5 pipe-delimited parts, `current_run` or
`total_runs` not an integer, or `sub_progress` not a float — leaves every
field of the run state unchanged (and, the handler being a total function,
raises nothing). -/
theorem malformed_progress_line_ignored (now line : List Char)
    (st : BenchmarkState)
    (hpre : (pyStrip line).take 10 = progressMarker)
    (hbad : (splitLimit '|' 4 (pyStrip ((pyStrip line).drop 10))).length ≠ 5 ∨
      ∃ phase cr tr sp msg,
        splitLimit '|' 4 (pyStrip ((pyStrip line).drop 10))
            = [phase, cr, tr, sp, msg] ∧
        (pyParseInt cr = none ∨ pyParseInt tr = none ∨ pyParseFloat sp = none)) :
    processLine now st line = st := by
  have hnone : parseProgress ((pyStrip line).drop 10) = none := by
    unfold parseProgress
    rcases hbad with hlen | ⟨ph, cr, tr, sp, msg, hsplit, hfail⟩
    · rcases hl : splitLimit '|' 4 (pyStrip ((pyStrip line).drop 10)) with
        _ | ⟨a, _ | ⟨b, _ | ⟨c, _ | ⟨d, _ | ⟨e, _ | ⟨f, r⟩⟩⟩⟩⟩⟩ <;>
        first
        | rfl
        | (exfalso; apply hlen; rw [hl]; rfl)
    · rw [hsplit]
      rcases h1 : pyParseInt cr with _ | c <;>
        rcases h2 : pyParseInt tr with _ | t <;>
        rcases h3 : pyParseFloat sp with _ | s <;>
        simp_all
  simp [processLine, hpre, hnone]

/-- A concrete run state used by witnesses. -/
def sampleState : BenchmarkState :=
  { status := (r"running").toList
  , runs := 3
  , categories := [(r"small").toList]
  , started_at := []
  , results := []
  , current_progress := 0
  , total_runs := 9
  , sub_progress := 0
  , overall_progress_pct := 0
  , phase := []
  , last_update := []
  , last_message := []
  , error := []
  , completed_at := [] }

/-- Witness for `malformed_progress_line_ignored`: a marker line whose
`current_run` field is not an integer is ignored. -/
theorem malformed_progress_line_ignored_witness :
    processLine [] sampleState ((r"[PROGRESS] p|x|3|0.5|m").toList)
      = sampleState :=
  malformed_progress_line_ignored [] _ sampleState (by decide)
    (Or.inr ⟨['p'], ['x'], ['3'], ['0', '.', '5'], ['m'], by decide,
      Or.inl (by decide)⟩)

/-! ## Embedding client (src/app/embeddings.py, `ollama_embed`)

Vector components are modelled as `ℝ` (L2 normalization divides by a square
root).  The embedding service is an oracle mapping (batch index, attempt
index) to the outcome of one HTTP POST: a 200 answer carrying the decoded
`embeddings` list, an HTTP error status raised by `raise_for_status`, or a
non-HTTP exception. -/

/-- Outcome of one request to the embedding service. -/
inductive Response where
  | ok (embeddings : List (List ℝ))
  | httpErr (status : Nat)
  | exc

/-- The fatal error classes of `ollama_embed`: the two `RuntimeError`
validations, an HTTP error re-raised after the retry check, and any other
exception. -/
inductive EmbedErr where
  | countMismatch
  | dimMismatch
  | httpStatus (status : Nat)
  | exc
deriving DecidableEq

/-- `l2_normalize` (src/app/utils.py): `s = sqrt(sum(v*v)) or 1.0`, then
divide every component by `s`; the `or 1.0` guard replaces a zero norm
by `1`. -/
noncomputable def l2_normalize (vec : List ℝ) : List ℝ :=
  let s := Real.sqrt (vec.map (fun v => v * v)).sum
  let s := if s = 0 then 1 else s
  vec.map (fun v => v / s)

/-- Sum of squared components (`sum(v*v for v in vec)`). -/
def sumSq (v : List ℝ) : ℝ := (v.map (fun x => x * x)).sum

/-- The `while retries < max_retries` retry loop of `ollama_embed` for one
batch, started at attempt `retries`.  Returns the list of back-off sleeps
performed (in seconds) and either the normalized vectors of the batch or
the fatal error raised.  A 404 with retries remaining sleeps `3 ^ retries`
and retries; any other HTTP status, and any non-HTTP error, re-raises.
When the loop is never entered (`retries ≥ max_retries`, only possible for
`max_retries = 0`) Python falls through and appends nothing. -/
noncomputable def processBatch (oracle : Nat → Response) (batchLen embedDim maxRetries : Nat) :
    Nat → List Nat × Except EmbedErr (List (List ℝ))
  | retries =>
    if h : retries < maxRetries then
      match oracle retries with
      | .ok embs =>
        if embs.length ≠ batchLen then ([], .error .countMismatch)
        else if embs.any (fun v => v.isEmpty || v.length != embedDim) then
          ([], .error .dimMismatch)
        else ([], .ok (embs.map l2_normalize))
      | .httpErr s =>
        if s = 404 ∧ retries < maxRetries - 1 then
          let rest := processBatch oracle batchLen embedDim maxRetries (retries + 1)
          (3 ^ retries :: rest.1, rest.2)
        else ([], .error (.httpStatus s))
      | .exc => ([], .error .exc)
    else ([], .ok [])
termination_by retries => maxRetries - retries

/-- `range(0, len(texts), BATCH_SIZE)` slicing with `BATCH_SIZE = 32`. -/
def toBatches {α : Type} : List α → List (List α)
  | [] => []
  | a :: rest => ((a :: rest).take 32) :: toBatches ((a :: rest).drop 32)
termination_by l => l.length
decreasing_by simp; omega

/-- The outer batch loop of `ollama_embed`: batches are processed in order,
each successful batch's normalized vectors are appended to the output, and
the first fatal error aborts the whole call. -/
noncomputable def embedBatches (oracle : Nat → Nat → Response) (embedDim maxRetries : Nat) :
    Nat → List (List α) → List Nat × Except EmbedErr (List (List ℝ))
  | _, [] => ([], .ok [])
  | i, b :: bs =>
    let br := processBatch (oracle i) b.length embedDim maxRetries 0
    match br.2 with
    | .error e => (br.1, .error e)
    | .ok vs =>
      let rest := embedBatches oracle embedDim maxRetries (i + 1) bs
      (br.1 ++ rest.1, rest.2.map (fun out => vs ++ out))

/-- `ollama_embed(texts, max_retries)`: empty input short-circuits to `[]`,
otherwise the input is split into batches of 32 and processed in order. -/
noncomputable def ollama_embed (oracle : Nat → Nat → Response) (embedDim : Nat)
    (texts : List α) (maxRetries : Nat) :
    List Nat × Except EmbedErr (List (List ℝ)) :=
  if texts.isEmpty then ([], .ok [])
  else embedBatches oracle embedDim maxRetries 0 (toBatches texts)

/-- One 404-with-retries-remaining step: sleep `3 ^ retries` seconds and
try again. -/
theorem processBatch_step_404 (oracle : Nat → Response) (n d mr r : Nat)
    (hr : r < mr) (ho : oracle r = .httpErr 404) (hlt : r < mr - 1) :
    processBatch oracle n d mr r
      = (3 ^ r :: (processBatch oracle n d mr (r + 1)).1,
         (processBatch oracle n d mr (r + 1)).2) := by
  rw [processBatch]
  simp [hr, ho, hlt]

/-- If every attempt answers 404, the batch performs the sleeps
`3^r, 3^(r+1), …, 3^(mr-2)` and then fails with the 404 error. -/
theorem processBatch_exhaust (oracle : Nat → Response) (n d mr : Nat)
    (hor : ∀ k, oracle k = .httpErr 404) :
    ∀ gas r, mr - r ≤ gas → r < mr →
      processBatch oracle n d mr r
        = ((List.range (mr - 1 - r)).map (fun k => 3 ^ (r + k)),
           .error (.httpStatus 404)) := by
  intro gas
  induction gas with
  | zero => intro r h1 h2; omega
  | succ gas ih =>
    intro r h1 h2
    by_cases hlt : r < mr - 1
    · rw [processBatch_step_404 oracle n d mr r h2 (hor r) hlt,
        ih (r + 1) (by omega) (by omega)]
      have hsp : mr - 1 - r = (mr - 1 - (r + 1)) + 1 := by omega
      rw [hsp, List.range_succ_eq_map]
      simp [List.map_map, Function.comp]
      intro a _
      omega
    · rw [processBatch]
      simp [h2, hor r, hlt]
      omega

/-- A successful batch comes from a single `ok` attempt whose vectors pass
both validations, every earlier attempt having been a retried 404; the
output is exactly that attempt's vectors, normalized, in order. -/
theorem processBatch_ok (oracle : Nat → Response) (blen d mr : Nat) :
    ∀ gas r, mr - r ≤ gas → r < mr →
    ∀ sl vs, processBatch oracle blen d mr r = (sl, .ok vs) →
    ∃ raw a, r ≤ a ∧ a < mr ∧ oracle a = .ok raw ∧ raw.length = blen ∧
      (∀ v ∈ raw, v ≠ [] ∧ v.length = d) ∧ vs = raw.map l2_normalize := by
  intro gas
  induction gas with
  | zero => intro r h1 h2; omega
  | succ gas ih =>
    intro r h1 h2 sl vs hrun
    rw [processBatch] at hrun
    rw [dif_pos h2] at hrun
    cases ho : oracle r with
    | ok embs =>
      rw [ho] at hrun
      dsimp only at hrun
      by_cases hlen : embs.length ≠ blen
      · rw [if_pos hlen] at hrun
        simp at hrun
      · rw [if_neg hlen] at hrun
        by_cases hbad : embs.any (fun v => v.isEmpty || v.length != d)
        · rw [if_pos hbad] at hrun
          simp at hrun
        · rw [if_neg hbad] at hrun
          simp only [Prod.mk.injEq, Except.ok.injEq] at hrun
          refine ⟨embs, r, le_refl r, h2, ho, by omega, ?_, hrun.2.symm⟩
          intro v hv
          have hni := fun h => hbad (List.any_eq_true.mpr ⟨v, hv, h⟩)
          simp only [Bool.or_eq_true, List.isEmpty_iff, bne_iff_ne, ne_eq,
            not_or] at hni
          constructor
          · intro hveq
            exact hni (Or.inl hveq)
          · by_contra hne
            exact hni (Or.inr hne)
    | httpErr s =>
      rw [ho] at hrun
      dsimp only at hrun
      by_cases hcond : s = 404 ∧ r < mr - 1
      · rw [if_pos hcond] at hrun
        simp only [Prod.mk.injEq] at hrun
        obtain ⟨raw, a, ha1, ha2, ha3, ha4, ha5, ha6⟩ :=
          ih (r + 1) (by omega) (by omega)
            (processBatch oracle blen d mr (r + 1)).1 vs
            (by rw [← hrun.2])
        exact ⟨raw, a, by omega, ha2, ha3, ha4, ha5, ha6⟩
      · rw [if_neg hcond] at hrun
        simp at hrun
    | exc =>
      rw [ho] at hrun
      dsimp only at hrun
      simp at hrun

/-- C4: only the "not ready" class (HTTP 404) is retried: a 404 with
retries remaining sleeps `3 ^ attempt` seconds (base 3, attempts counted
from 0) and retries; when every attempt answers 404 the batch performs
exactly `max_retries` attempts with sleeps `3^0 … 3^(max_retries−2)` and
then fails fatally; any HTTP error of another status, and any non-HTTP
error, fails fatally at once with no sleep and no retry. -/
theorem ollama_embed_retry_policy :
    (∀ (oracle : Nat → Response) (n d mr r : Nat), r < mr →
      oracle r = .httpErr 404 → r < mr - 1 →
      processBatch oracle n d mr r
        = (3 ^ r :: (processBatch oracle n d mr (r + 1)).1,
           (processBatch oracle n d mr (r + 1)).2)) ∧
    (∀ (oracle : Nat → Response) (n d mr : Nat), 0 < mr →
      (∀ k, oracle k = .httpErr 404) →
      processBatch oracle n d mr 0
        = ((List.range (mr - 1)).map (fun k => 3 ^ k),
           .error (.httpStatus 404))) ∧
    (∀ (oracle : Nat → Response) (n d mr r s : Nat), r < mr →
      oracle r = .httpErr s → s ≠ 404 →
      processBatch oracle n d mr r = ([], .error (.httpStatus s))) ∧
    (∀ (oracle : Nat → Response) (n d mr r : Nat), r < mr →
      oracle r = .exc →
      processBatch oracle n d mr r = ([], .error .exc)) := by
  refine ⟨processBatch_step_404, ?_, ?_, ?_⟩
  · intro oracle n d mr hmr hor
    have hx := processBatch_exhaust oracle n d mr hor mr 0 (by omega) hmr
    simpa using hx
  · intro oracle n d mr r s hr ho hs
    rw [processBatch]
    simp [hr, ho, hs]
  · intro oracle n d mr r hr ho
    rw [processBatch]
    simp [hr, ho]

/-- Witness for `ollama_embed_retry_policy`: three all-404 attempts sleep
1 s and 3 s and then fail with the 404 error. -/
theorem ollama_embed_retry_policy_witness :
    0 < 3 ∧
    processBatch (fun _ => Response.httpErr 404) 1 1 3 0
      = ((List.range (3 - 1)).map (fun k => 3 ^ k),
         .error (.httpStatus 404)) :=
  ⟨by norm_num,
    ollama_embed_retry_policy.2.1 (fun _ => Response.httpErr 404) 1 1 3
      (by norm_num) (fun _ => rfl)⟩

/-- An all-zero vector is returned unchanged: the `or 1.0` guard replaces
its zero norm by 1 and dividing by 1 is the identity. -/
theorem l2_normalize_all_zero (v : List ℝ) (h : ∀ x ∈ v, x = 0) :
    l2_normalize v = v := by
  have hS : (v.map (fun x => x * x)).sum = 0 := by
    apply List.sum_eq_zero
    intro x hx
    obtain ⟨y, hy, rfl⟩ := List.mem_map.mp hx
    rw [h y hy]; ring
  simp only [l2_normalize, hS, Real.sqrt_zero, if_pos rfl]
  simp [div_one]

/-- A vector with a nonzero component has unit L2 norm after
normalization. -/
theorem l2_normalize_unit (v : List ℝ) (h : ∃ x ∈ v, x ≠ 0) :
    sumSq (l2_normalize v) = 1 := by
  obtain ⟨x, hx, hxne⟩ := h
  have hS : 0 < (v.map (fun y => y * y)).sum := by
    have h1 : (0:ℝ) < x * x := mul_self_pos.mpr hxne
    have h2 : x * x ≤ (v.map (fun y => y * y)).sum := by
      apply List.single_le_sum
      · intro y hy
        obtain ⟨z, hz, rfl⟩ := List.mem_map.mp hy
        exact mul_self_nonneg z
      · exact List.mem_map_of_mem _ hx
    linarith
  have hs : 0 < Real.sqrt ((v.map (fun y => y * y)).sum) := Real.sqrt_pos.mpr hS
  simp only [sumSq, l2_normalize, if_neg hs.ne']
  rw [List.map_map]
  have hcomp :
      ((fun x => x * x) ∘ fun y => y / Real.sqrt ((v.map (fun y => y * y)).sum))
        = fun y => (y * y) * (Real.sqrt ((v.map (fun y => y * y)).sum)
            * Real.sqrt ((v.map (fun y => y * y)).sum))⁻¹ := by
    funext y
    simp only [Function.comp_apply, div_eq_mul_inv, mul_inv]
    ring
  rw [hcomp, List.sum_map_mul_right _ _ _,
    Real.mul_self_sqrt hS.le, mul_inv_cancel₀ hS.ne']

/-- Concatenating the batches gives back the input list. -/
theorem toBatches_join {α : Type} :
    ∀ (n : Nat) (l : List α), l.length ≤ n → (toBatches l).flatten = l := by
  intro n
  induction n with
  | zero =>
    intro l h
    cases l with
    | nil => simp [toBatches]
    | cons a rest => simp at h
  | succ n ih =>
    intro l h
    cases l with
    | nil => simp [toBatches]
    | cons a rest =>
      rw [toBatches]
      rw [List.flatten_cons]
      rw [ih ((a :: rest).drop 32) (by simp at h ⊢; omega)]
      exact List.take_append_drop 32 (a :: rest)

/-- Two list-of-lists with pointwise equal lengths have flattenings of
equal length. -/
theorem flatten_length_congr {β γ : Type} :
    ∀ (xs : List (List β)) (ys : List (List γ)), xs.length = ys.length →
      (∀ j, j < xs.length → (xs.getD j []).length = (ys.getD j []).length) →
      xs.flatten.length = ys.flatten.length := by
  intro xs
  induction xs with
  | nil =>
    intro ys h _
    cases ys with
    | nil => rfl
    | cons y ys => simp at h
  | cons x xs ih =>
    intro ys h hj
    cases ys with
    | nil => simp at h
    | cons y ys =>
      have h0 : x.length = y.length := by simpa using hj 0 (by simp)
      have hrest := ih ys (by simpa using h)
        (fun j hjlt => by simpa using hj (j + 1) (by simpa using hjlt))
      simp [List.flatten_cons, h0, hrest]

/-- A successful run of the batch loop yields, per batch, one validated
`ok` server answer whose normalized vectors are concatenated in batch
order. -/
theorem embedBatches_ok {α : Type} (oracle : Nat → Nat → Response)
    (d mr : Nat) (hmr : 0 < mr) :
    ∀ (bs : List (List α)) (i : Nat) (sl : List Nat) (out : List (List ℝ)),
      embedBatches oracle d mr i bs = (sl, .ok out) →
      ∃ raws : List (List (List ℝ)),
        raws.length = bs.length ∧
        out = raws.flatten.map l2_normalize ∧
        ∀ j, j < bs.length →
          (raws.getD j []).length = (bs.getD j []).length ∧
          (∀ v ∈ raws.getD j [], v ≠ [] ∧ v.length = d) ∧
          ∃ a, a < mr ∧ oracle (i + j) a = .ok (raws.getD j []) := by
  intro bs
  induction bs with
  | nil =>
    intro i sl out h
    simp only [embedBatches, Prod.mk.injEq, Except.ok.injEq] at h
    exact ⟨[], rfl, by simp [← h.2], fun j hj => absurd hj (by simp)⟩
  | cons b bs ih =>
    intro i sl out h
    rw [embedBatches] at h
    rcases hpb : (processBatch (oracle i) b.length d mr 0).2 with e | vs
    · rw [hpb] at h
      dsimp only at h
      simp at h
    · rw [hpb] at h
      dsimp only at h
      rcases hrest : (embedBatches oracle d mr (i + 1) bs).2 with e' | out'
      · rw [hrest] at h
        simp [Except.map] at h
      · rw [hrest] at h
        simp only [Prod.mk.injEq, Except.map, Except.ok.injEq] at h
        have hout : out = vs ++ out' := h.2.symm
        have hfull : processBatch (oracle i) b.length d mr 0
            = ((processBatch (oracle i) b.length d mr 0).1, Except.ok vs) := by
          rw [← hpb]
        obtain ⟨raw, a, _, ha2, ha3, ha4, ha5, ha6⟩ :=
          processBatch_ok (oracle i) b.length d mr mr 0 (by omega) hmr _ _ hfull
        have hfull' : embedBatches oracle d mr (i + 1) bs
            = ((embedBatches oracle d mr (i + 1) bs).1, Except.ok out') := by
          rw [← hrest]
        obtain ⟨raws', hr1, hr2, hr3⟩ := ih (i + 1) _ _ hfull'
        refine ⟨raw :: raws', by simp [hr1], ?_, ?_⟩
        · rw [hout, hr2, ha6]
          simp
        · intro j hj
          cases j with
          | zero =>
            refine ⟨by simpa using ha4, by simpa using ha5, a, ha2, ?_⟩
            simpa using ha3
          | succ k =>
            have hk : k < bs.length := by simpa using hj
            obtain ⟨hb1, hb2, a', ha'1, ha'2⟩ := hr3 k hk
            refine ⟨by simpa using hb1, by simpa using hb2, a', ha'1, ?_⟩
            have hik : i + 1 + k = i + (k + 1) := by omega
            rw [← hik]
            simpa using ha'2

/-- C5: when `ollama_embed` succeeds (with at least one retry allowed, as
at every call site, where `max_retries = 5`), the output is exactly the
per-batch server vectors, concatenated in batch order and normalized
positionally — one vector per input text, in input order; every server
vector passed the non-empty and dimension checks; `l2_normalize` returns
an all-zero vector unchanged (the `or 1.0` guard) and gives every other
vector unit L2 norm.  A batch answer with the wrong vector count, or
containing a vector of the wrong dimension, is a fatal error. -/
theorem ollama_embed_output_spec :
    (∀ {α : Type} (oracle : Nat → Nat → Response) (d : Nat) (texts : List α)
        (mr : Nat) (sleeps : List Nat) (out : List (List ℝ)), 0 < mr →
      ollama_embed oracle d texts mr = (sleeps, .ok out) →
      ∃ raws : List (List (List ℝ)),
        out = raws.flatten.map l2_normalize ∧
        out.length = texts.length ∧
        (∀ v ∈ raws.flatten, v ≠ [] ∧ v.length = d) ∧
        (∀ j, j < raws.length →
          ∃ a, a < mr ∧ oracle j a = .ok (raws.getD j [])) ∧
        (∀ v ∈ raws.flatten,
          ((∀ x ∈ v, x = (0:ℝ)) → l2_normalize v = v) ∧
          ((∃ x ∈ v, x ≠ (0:ℝ)) → sumSq (l2_normalize v) = 1))) ∧
    (∀ (oracle : Nat → Response) (blen d mr r : Nat) (embs : List (List ℝ)),
      r < mr → oracle r = .ok embs →
      (embs.length ≠ blen →
        processBatch oracle blen d mr r = ([], .error .countMismatch)) ∧
      (embs.length = blen → (∃ v ∈ embs, v = [] ∨ v.length ≠ d) →
        processBatch oracle blen d mr r = ([], .error .dimMismatch))) := by
  constructor
  · intro α oracle d texts mr sleeps out hmr hrun
    rw [ollama_embed] at hrun
    by_cases hemp : texts.isEmpty
    · rw [if_pos hemp] at hrun
      simp only [Prod.mk.injEq, Except.ok.injEq] at hrun
      have htexts : texts = [] := List.isEmpty_iff.mp hemp
      refine ⟨[], by simp [← hrun.2], by simp [← hrun.2, htexts], by simp,
        ?_, by simp⟩
      intro j hj
      simp at hj
    · rw [if_neg hemp] at hrun
      obtain ⟨raws, hr1, hr2, hr3⟩ :=
        embedBatches_ok oracle d mr hmr (toBatches texts) 0 sleeps out hrun
      refine ⟨raws, hr2, ?_, ?_, ?_, ?_⟩
      · rw [hr2, List.length_map]
        rw [flatten_length_congr raws (toBatches texts) hr1
          (fun j hj => (hr3 j (hr1 ▸ hj)).1)]
        rw [toBatches_join texts.length texts (le_refl _)]
      · intro v hv
        obtain ⟨l, hl, hvl⟩ := List.mem_flatten.mp hv
        obtain ⟨j, hj, rfl⟩ := List.mem_iff_getElem.mp hl
        have hjb : j < (toBatches texts).length := hr1 ▸ hj
        have hmem := (hr3 j hjb).2.1
        rw [List.getD_eq_getElem raws [] hj] at hmem
        exact hmem _ hvl
      · intro j hj
        obtain ⟨a, ha1, ha2⟩ := (hr3 j (hr1 ▸ hj)).2.2
        exact ⟨a, ha1, by simpa using ha2⟩
      · intro v _
        exact ⟨l2_normalize_all_zero v, l2_normalize_unit v⟩
  · intro oracle blen d mr r embs hr ho
    constructor
    · intro hlen
      rw [processBatch]
      simp [hr, ho, hlen]
    · intro hlen hex
      obtain ⟨v, hv, hbad⟩ := hex
      have hany : embs.any (fun v => v.isEmpty || v.length != d) = true := by
        refine List.any_eq_true.mpr ⟨v, hv, ?_⟩
        rcases hbad with h | h <;> simp [h]
      rw [processBatch]
      simp [hr, ho, hlen, hany]

/-- Witness for `ollama_embed_output_spec`: one text, one batch, the
service answering `[[1, 0]]` with `d = 2` and `max_retries = 5`. -/
theorem ollama_embed_output_spec_witness :
    0 < 5 ∧
    ∃ raws : List (List (List ℝ)),
      [l2_normalize [1, 0]] = raws.flatten.map l2_normalize ∧
      ([l2_normalize [(1:ℝ), 0]]).length = ([0] : List Nat).length ∧
      (∀ v ∈ raws.flatten, v ≠ [] ∧ v.length = 2) ∧
      (∀ j, j < raws.length →
        ∃ a, a < 5 ∧ (fun (_ _ : Nat) => Response.ok [[(1:ℝ), 0]]) j a
          = .ok (raws.getD j [])) ∧
      (∀ v ∈ raws.flatten,
        ((∀ x ∈ v, x = (0:ℝ)) → l2_normalize v = v) ∧
        ((∃ x ∈ v, x ≠ (0:ℝ)) → sumSq (l2_normalize v) = 1)) :=
  ⟨by norm_num,
    ollama_embed_output_spec.1 (fun _ _ => Response.ok [[(1:ℝ), 0]]) 2
      ([0] : List Nat) 5 [] [l2_normalize [1, 0]] (by norm_num)
      (by have hb : toBatches ([0] : List Nat) = [[0]] := by
            rw [toBatches.eq_def]
            simp [toBatches]
          rw [ollama_embed, hb, embedBatches, processBatch]
          simp [embedBatches, Except.map])⟩

/-! ## Dual-store writers (src/app/db_pg.py `replace_source`,
src/app/chroma_client.py `upsert_source`)

The relational backend is a list of rows in insertion order; `replace_source`
is `DELETE FROM documents WHERE source = %s` followed by one `INSERT` per
`(chunk, embedding)` pair (`zip` + `enumerate`).  The vector store is an
association list from ids to entries; the id string `f"{source}::{i}"` is
modelled as the pair `(source, i)`, which is faithful because the digit
string of `i` after the final `"::"` determines the split, so distinct
pairs give distinct id strings.  Embedding vectors are kept polymorphic
(`V`); the `%.7f` serialization of `vector_literal` is not modelled. -/

/-- One row of the `documents` table. -/
structure PgRow (V : Type) where
  source : List Char
  chunk_id : Nat
  content : List Char
  embedding : V

/-- `replace_source`: delete every row of the source, then insert one row
per chunk with `chunk_id = i` in order. -/
def replace_source {V : Type} (source : List Char) (chunks : List (List Char))
    (embeddings : List V) (db : List (PgRow V)) : List (PgRow V) :=
  (db.filter (fun r => r.source != source)) ++
    ((chunks.zip embeddings).enum.map
      (fun p => ⟨source, p.1, p.2.1, p.2.2⟩))

/-- Number of rows stored for a source. -/
def pgCount {V : Type} (source : List Char) (db : List (PgRow V)) : Nat :=
  (db.filter (fun r => r.source == source)).length

/-- One entry of the Chroma collection (document, embedding and the
`{"source": …, "chunk": …}` metadata). -/
structure ChromaEntry (V : Type) where
  document : List Char
  embedding : V
  metaSource : List Char
  metaChunk : Nat

/-- The collection: an association list from ids `(source, chunk index)`
to entries. -/
abbrev ChromaDB (V : Type) : Type := List ((List Char × Nat) × ChromaEntry V)

/-- Upsert of a single id: replace the entry when the id exists, append it
otherwise. -/
def upsertOne {V : Type} (db : ChromaDB V)
    (kv : (List Char × Nat) × ChromaEntry V) : ChromaDB V :=
  if db.any (fun e => decide (e.1 = kv.1)) then
    db.map (fun e => if e.1 = kv.1 then kv else e)
  else db ++ [kv]

/-- `upsert_source`: upsert ids `source::0 … source::(len(chunks)-1)` with
the chunks and embeddings paired positionally. -/
def upsert_source {V : Type} (source : List Char) (chunks : List (List Char))
    (embeddings : List V) (db : ChromaDB V) : ChromaDB V :=
  ((chunks.zip embeddings).enum.map
    (fun p => ((source, p.1),
      (⟨p.2.1, p.2.2, source, p.1⟩ : ChromaEntry V)))).foldl upsertOne db

/-- The ids present in the collection, in storage order. -/
def chromaKeys {V : Type} (db : ChromaDB V) : List (List Char × Nat) :=
  db.map Prod.fst

/-- Number of entries stored for a source. -/
def chromaCount {V : Type} (source : List Char) (db : ChromaDB V) : Nat :=
  (db.filter (fun e => e.1.1 == source)).length

/-- C1 counterexample: ingest source `"s"` with two chunks, then re-ingest
it with one chunk.  The vector-store backend then holds 2 entries for
`"s"`, not `num_chunks = 1` of the second call: the id `s::1` of the first
ingest is never deleted, so re-ingesting with fewer chunks is not a full
replace there. -/
theorem reingest_fewer_chunks_not_full_replace :
    chromaCount ['s']
      (upsert_source ['s'] [['c']] [()]
        (upsert_source ['s'] [['a'], ['b']] [(), ()] ([] : ChromaDB Unit)))
      = 2 ∧ (2 : Nat) ≠ 1 := by decide

/-- A single relational replace leaves exactly the new rows for the
source. -/
theorem replace_source_filter {V : Type} (src : List Char)
    (c : List (List Char)) (e : List V) (db : List (PgRow V)) :
    (replace_source src c e db).filter (fun r => r.source == src)
      = (c.zip e).enum.map (fun p => ⟨src, p.1, p.2.1, p.2.2⟩) := by
  rw [replace_source, List.filter_append]
  have h1 : (db.filter (fun r => r.source != src)).filter
      (fun r => r.source == src) = [] := by
    rw [List.filter_eq_nil_iff]
    intro r hr
    have hne := (List.mem_filter.mp hr).2
    simp only [bne_iff_ne, ne_eq] at hne
    simp [hne]
  have h2 : ((c.zip e).enum.map
      (fun p => (⟨src, p.1, p.2.1, p.2.2⟩ : PgRow V))).filter
        (fun r => r.source == src)
      = (c.zip e).enum.map (fun p => ⟨src, p.1, p.2.1, p.2.2⟩) := by
    rw [List.filter_eq_self]
    intro r hr
    obtain ⟨p, _, rfl⟩ := List.mem_map.mp hr
    simp
  rw [h1, h2, List.nil_append]

theorem upsertOne_keys {V : Type} (db : ChromaDB V)
    (kv : (List Char × Nat) × ChromaEntry V) :
    chromaKeys (upsertOne db kv)
      = if kv.1 ∈ chromaKeys db then chromaKeys db
        else chromaKeys db ++ [kv.1] := by
  by_cases hmem : kv.1 ∈ chromaKeys db
  · have hany : db.any (fun e => decide (e.1 = kv.1)) = true := by
      obtain ⟨e, he, heq⟩ := List.mem_map.mp hmem
      exact List.any_eq_true.mpr ⟨e, he, by simp [heq]⟩
    rw [if_pos hmem, upsertOne, if_pos hany, chromaKeys, chromaKeys,
      List.map_map]
    apply List.map_congr_left
    intro e _
    by_cases he : e.1 = kv.1
    · simp [he]
    · simp [he]
  · have hany : db.any (fun e => decide (e.1 = kv.1)) = false := by
      rw [List.any_eq_false]
      intro e he
      simp only [decide_eq_true_eq]
      intro heq
      exact hmem (List.mem_map.mpr ⟨e, he, heq⟩)
    rw [if_neg hmem, upsertOne, hany]
    simp [chromaKeys]

theorem upsertOne_keys_toFinset {V : Type} (db : ChromaDB V)
    (kv : (List Char × Nat) × ChromaEntry V) :
    (chromaKeys (upsertOne db kv)).toFinset
      = (chromaKeys db).toFinset ∪ {kv.1} := by
  rw [upsertOne_keys]
  by_cases hmem : kv.1 ∈ chromaKeys db
  · rw [if_pos hmem]
    have hf : kv.1 ∈ (chromaKeys db).toFinset := List.mem_toFinset.mpr hmem
    rw [Finset.union_eq_left.mpr]
    simpa using hf
  · rw [if_neg hmem]
    simp [List.toFinset_append]

theorem upsertOne_keys_nodup {V : Type} (db : ChromaDB V)
    (kv : (List Char × Nat) × ChromaEntry V)
    (h : (chromaKeys db).Nodup) : (chromaKeys (upsertOne db kv)).Nodup := by
  rw [upsertOne_keys]
  by_cases hmem : kv.1 ∈ chromaKeys db
  · rw [if_pos hmem]; exact h
  · rw [if_neg hmem]
    simp [List.nodup_append, h, hmem]

/-- Upserting a list of items adds exactly the item ids to the id set and
preserves id uniqueness. -/
theorem foldl_upsert_keys {V : Type}
    (items : List ((List Char × Nat) × ChromaEntry V)) :
    ∀ db : ChromaDB V,
      (chromaKeys (items.foldl upsertOne db)).toFinset
        = (chromaKeys db).toFinset ∪ (items.map (fun i => i.1)).toFinset ∧
      ((chromaKeys db).Nodup →
        (chromaKeys (items.foldl upsertOne db)).Nodup) := by
  induction items with
  | nil =>
    intro db
    refine ⟨by rw [List.foldl_nil]; simp, fun h => by rwa [List.foldl_nil]⟩
  | cons it rest ih =>
    intro db
    rw [List.foldl_cons]
    obtain ⟨h1, h2⟩ := ih (upsertOne db it)
    constructor
    · rw [h1, upsertOne_keys_toFinset, List.map_cons, List.toFinset_cons,
        Finset.insert_eq, Finset.union_assoc]
    · intro hnd
      exact h2 (upsertOne_keys_nodup db it hnd)

theorem chromaCount_eq_keys_filter {V : Type} (src : List Char)
    (db : ChromaDB V) :
    chromaCount src db
      = ((chromaKeys db).filter (fun k => k.1 == src)).length := by
  rw [chromaCount, chromaKeys, List.filter_map, List.length_map]
  rfl

theorem keys_filter_card {V : Type} (src : List Char) (db : ChromaDB V)
    (h : (chromaKeys db).Nodup) :
    ((chromaKeys db).filter (fun k => k.1 == src)).length
      = ((chromaKeys db).toFinset.filter (fun k => k.1 = src)).card := by
  rw [← List.toFinset_card_of_nodup (h.filter _), List.toFinset_filter]
  congr 1
  simp

theorem upsert_items_keys {V : Type} (src : List Char)
    (c : List (List Char)) (e : List V) :
    (((c.zip e).enum.map
      (fun p => ((src, p.1), (⟨p.2.1, p.2.2, src, p.1⟩ : ChromaEntry V)))).map
        (fun i => i.1)).toFinset
      = (Finset.range (c.zip e).length).image (fun i => (src, i)) := by
  rw [List.map_map]
  have hcomp : ((fun i => i.1) ∘ (fun p : Nat × (List Char × V) =>
      ((src, p.1), (⟨p.2.1, p.2.2, src, p.1⟩ : ChromaEntry V))))
      = (fun i => (src, i)) ∘ Prod.fst := rfl
  rw [hcomp, ← List.map_map, List.enum_map_fst]
  ext x
  simp

theorem range_union_range (n1 n2 : Nat) :
    Finset.range n1 ∪ Finset.range n2 = Finset.range (max n1 n2) := by
  ext x
  simp only [Finset.mem_union, Finset.mem_range]
  omega

/-- After two successive upserts of the same source into a collection with
unique ids and no prior entries for that source, the number of entries for
the source is `max` of the two chunk counts — the second ingest's ids only
overwrite the ids they share with the first. -/
theorem chroma_upsert_twice_count {V : Type} (src : List Char)
    (c1 c2 : List (List Char)) (e1 e2 : List V) (db : ChromaDB V)
    (h1 : c1.length = e1.length) (h2 : c2.length = e2.length)
    (hnd : (chromaKeys db).Nodup)
    (hclean : ∀ k ∈ chromaKeys db, k.1 ≠ src) :
    chromaCount src (upsert_source src c2 e2 (upsert_source src c1 e1 db))
      = max c1.length c2.length := by
  have hz1 : (c1.zip e1).length = c1.length := by simp [h1]
  have hz2 : (c2.zip e2).length = c2.length := by simp [h2]
  obtain ⟨hk1, hn1⟩ := foldl_upsert_keys
    ((c1.zip e1).enum.map
      (fun p => ((src, p.1), (⟨p.2.1, p.2.2, src, p.1⟩ : ChromaEntry V)))) db
  obtain ⟨hk2, hn2⟩ := foldl_upsert_keys
    ((c2.zip e2).enum.map
      (fun p => ((src, p.1), (⟨p.2.1, p.2.2, src, p.1⟩ : ChromaEntry V))))
    (upsert_source src c1 e1 db)
  have hnd1 : (chromaKeys (upsert_source src c1 e1 db)).Nodup := hn1 hnd
  have hnd2 : (chromaKeys (upsert_source src c2 e2
      (upsert_source src c1 e1 db))).Nodup := hn2 hnd1
  have hup : ∀ (c : List (List Char)) (e : List V) (d : ChromaDB V),
      upsert_source src c e d = ((c.zip e).enum.map
        (fun p => ((src, p.1),
          (⟨p.2.1, p.2.2, src, p.1⟩ : ChromaEntry V)))).foldl upsertOne d :=
    fun _ _ _ => rfl
  rw [chromaCount_eq_keys_filter, keys_filter_card src _ hnd2]
  rw [hup c2 e2 (upsert_source src c1 e1 db), hk2, hup c1 e1 db, hk1]
  rw [upsert_items_keys, upsert_items_keys, hz1, hz2]
  rw [Finset.filter_union, Finset.filter_union]
  have hdb : (chromaKeys db).toFinset.filter (fun k => k.1 = src) = ∅ := by
    rw [Finset.filter_eq_empty_iff]
    intro k hk
    exact hclean k (List.mem_toFinset.mp hk)
  have him : ∀ n : Nat, ((Finset.range n).image
      (fun i => (src, i))).filter (fun k => k.1 = src)
      = (Finset.range n).image (fun i => (src, i)) := by
    intro n
    rw [Finset.filter_eq_self]
    intro k hk
    obtain ⟨i, _, rfl⟩ := Finset.mem_image.mp hk
    rfl
  have hinj : Function.Injective (fun i : Nat => (src, i)) := by
    intro a b hab
    simpa using hab
  rw [hdb, him, him, Finset.empty_union, ← Finset.image_union,
    range_union_range, Finset.card_image_of_injective _ hinj,
    Finset.card_range]

/-- C1 amended: for the relational backend, two successive ingest calls
for a source are a full replace from any prior state — the rows stored for
the source afterwards are exactly one row per chunk of the second call, so
exactly `num_chunks` rows.  For the vector-store backend, starting from a
collection with unique ids and no entries for the source, two successive
ingest calls leave `max` of the two chunk counts entries for the source:
exactly `num_chunks` of the second call when it has at least as many
chunks as the first, but stale higher-index entries of the first call
survive when it has fewer. -/
theorem reingest_replace_amended :
    (∀ (V : Type) (src : List Char) (c1 c2 : List (List Char))
        (e1 e2 : List V) (db : List (PgRow V)), c2.length = e2.length →
      ((replace_source src c2 e2 (replace_source src c1 e1 db)).filter
          (fun r => r.source == src))
        = (c2.zip e2).enum.map (fun p => ⟨src, p.1, p.2.1, p.2.2⟩) ∧
      pgCount src (replace_source src c2 e2 (replace_source src c1 e1 db))
        = c2.length) ∧
    (∀ (V : Type) (src : List Char) (c1 c2 : List (List Char))
        (e1 e2 : List V) (db : ChromaDB V),
      c1.length = e1.length → c2.length = e2.length →
      (chromaKeys db).Nodup → (∀ k ∈ chromaKeys db, k.1 ≠ src) →
      (chromaCount src
          (upsert_source src c2 e2 (upsert_source src c1 e1 db))
        = max c1.length c2.length ∧
      (c1.length ≤ c2.length →
        chromaCount src
            (upsert_source src c2 e2 (upsert_source src c1 e1 db))
          = c2.length))) := by
  constructor
  · intro V src c1 c2 e1 e2 db h2
    refine ⟨replace_source_filter src c2 e2 _, ?_⟩
    rw [pgCount, replace_source_filter]
    simp [h2]
  · intro V src c1 c2 e1 e2 db h1 h2 hnd hclean
    have hmax := chroma_upsert_twice_count src c1 c2 e1 e2 db h1 h2 hnd hclean
    exact ⟨hmax, fun hle => by rw [hmax]; omega⟩

/-- Witness for `reingest_replace_amended`: source `"s"` ingested with one
chunk then two chunks, from empty backends. -/
theorem reingest_replace_amended_witness :
    (([['b'], ['c']] : List (List Char)).length = ([(), ()] : List Unit).length ∧
      ((replace_source ['s'] [['b'], ['c']] [(), ()]
          (replace_source ['s'] [['a']] [()] ([] : List (PgRow Unit)))).filter
          (fun r => r.source == ['s']))
        = (([['b'], ['c']] : List (List Char)).zip
            ([(), ()] : List Unit)).enum.map
            (fun p => ⟨['s'], p.1, p.2.1, p.2.2⟩) ∧
      pgCount ['s'] (replace_source ['s'] [['b'], ['c']] [(), ()]
          (replace_source ['s'] [['a']] [()] ([] : List (PgRow Unit))))
        = ([['b'], ['c']] : List (List Char)).length) ∧
    (chromaCount ['s']
        (upsert_source ['s'] [['b'], ['c']] [(), ()]
          (upsert_source ['s'] [['a']] [()] ([] : ChromaDB Unit)))
      = max 1 2) :=
  ⟨⟨by decide,
    (reingest_replace_amended.1 Unit ['s'] [['a']] [['b'], ['c']] [()]
      [(), ()] [] (by decide)).1,
    (reingest_replace_amended.1 Unit ['s'] [['a']] [['b'], ['c']] [()]
      [(), ()] [] (by decide)).2⟩,
    (reingest_replace_amended.2 Unit ['s'] [['a']] [['b'], ['c']] [()]
      [(), ()] [] (by decide) (by decide) (by decide)
      (by intro k hk; simp [chromaKeys] at hk)).1⟩

/-! ## Text extractor (src/app/utils.py, `extract_text_from_openapi`)

The parsed document (JSON first, then the two YAML loaders, all inside one
`try`) is modelled by a parse oracle returning an optional generic Python
value; `Option.none` stands for "every parser raised", in which case the
extractor returns the raw input.  Python dicts are association lists in
insertion order; structured-markup parses with non-string keys are
modelled by their string rendering.  `pyStr` models `str()` (contained
strings are rendered unquoted, a rendering difference that affects no
claim).
-/

/-- A generic parsed Python value. -/
inductive PyVal where
  | none
  | bool (b : Bool)
  | int (n : Int)
  | float (q : ℚ)
  | str (s : List Char)
  | list (l : List PyVal)
  | dict (d : List (List Char × PyVal))

def pyStr : PyVal → List Char
  | .none => (r"None").toList
  | .bool true => (r"True").toList
  | .bool false => (r"False").toList
  | .int n => (toString n).toList
  | .float q => (toString q).toList
  | .str s => s
  | .list l =>
    '[' :: (List.intercalate [',', ' ']
      (l.attach.map (fun x => pyStr x.1))) ++ [']']
  | .dict d =>
    '\x7b' :: (List.intercalate [',', ' ']
      (d.attach.map (fun kv => kv.1.1 ++ (':' :: ' ' :: pyStr kv.1.2)))) ++ ['\x7d']
termination_by v => sizeOf v
decreasing_by
  all_goals simp_wf
  · have := List.sizeOf_lt_of_mem x.2
    omega
  · have h1 := List.sizeOf_lt_of_mem kv.2
    have h2 : sizeOf kv.1.2 < sizeOf kv.1 := by
      obtain ⟨a, b⟩ := kv.1
      simp
    omega


def dictGet? (d : List (List Char × PyVal)) (key : List Char) : Option PyVal :=
  (d.find? (fun kv => kv.1 == key)).map (fun kv => kv.2)

def dictGetD (d : List (List Char × PyVal)) (key : List Char)
    (dflt : PyVal) : PyVal :=
  (dictGet? d key).getD dflt

def pyTruthy : PyVal → Bool
  | .none => false
  | .bool b => b
  | .int n => n != 0
  | .float q => q != 0
  | .str s => !s.isEmpty
  | .list l => !l.isEmpty
  | .dict d => !d.isEmpty

def keyedTruthy (d : List (List Char × PyVal)) (k : List Char) :
    List (List Char) :=
  match dictGet? d k with
  | some v => if pyTruthy v then [pyStr v] else []
  | Option.none => []

def opParts (specd : List (List Char × PyVal)) : List (List Char) :=
  keyedTruthy specd ((r"summary").toList) ++
  keyedTruthy specd ((r"description").toList) ++
  (match dictGet? specd ((r"tags").toList) with
   | some (.list ts) => ts.map pyStr
   | _ => []) ++
  (match dictGetD specd ((r"parameters").toList) (.list []) with
   | .list ps => ps.flatMap (fun param =>
       match param with
       | .dict pd =>
         let pname := dictGetD pd ((r"name").toList) (.str [])
         let pdesc := dictGetD pd ((r"description").toList) (.str [])
         (if pyTruthy pname
          then [(r"Parameter: ").toList ++ pyStr pname] else []) ++
         (if pyTruthy pdesc then [pyStr pdesc] else [])
       | _ => [])
   | _ => []) ++
  (match dictGetD specd ((r"requestBody").toList) (.dict []) with
   | .dict rb =>
     let rbdesc := dictGetD rb ((r"description").toList) (.str [])
     if pyTruthy rbdesc then [(r"Request: ").toList ++ pyStr rbdesc] else []
   | _ => []) ++
  (match dictGetD specd ((r"responses").toList) (.dict []) with
   | .dict resps => resps.flatMap (fun cr =>
       match cr.2 with
       | .dict rd =>
         let rdesc := dictGetD rd ((r"description").toList) (.str [])
         if pyTruthy rdesc then
           [(r"Response ").toList ++ cr.1 ++ (r": ").toList ++ pyStr rdesc]
         else []
       | _ => [])
   | _ => [])

def extract_schemas (schemas : PyVal) : List (List Char) :=
  match schemas with
  | .dict sd => sd.flatMap (fun ns =>
      match ns.2 with
      | .dict sdd =>
        ((r"Schema: ").toList ++ ns.1) ::
        ((let sdesc := dictGetD sdd ((r"description").toList) (.str [])
          if pyTruthy sdesc then [pyStr sdesc] else []) ++
         (match dictGetD sdd ((r"properties").toList) (.dict []) with
          | .dict props => props.flatMap (fun pp =>
              match pp.2 with
              | .dict pd =>
                let pdesc := dictGetD pd ((r"description").toList) (.str [])
                let ptype := dictGetD pd ((r"type").toList) (.str [])
                ((r"Property: ").toList ++ pp.1 ++
                  (if pyTruthy ptype
                   then (r" (").toList ++ pyStr ptype ++ [')'] else [])) ::
                (if pyTruthy pdesc then [pyStr pdesc] else [])
              | _ => [])
          | _ => []))
      | _ => [])
  | _ => []

def extractParts (dd : List (List Char × PyVal)) : List (List Char) :=
  (match dictGetD dd ((r"info").toList) (.dict []) with
   | .dict info =>
     [pyStr (dictGetD info ((r"title").toList) (.str [])),
      pyStr (dictGetD info ((r"description").toList) (.str []))]
   | _ => []) ++
  (match dictGetD dd ((r"paths").toList) (.dict []) with
   | .dict paths => paths.flatMap (fun po =>
       ((r"Path: ").toList ++ po.1) ::
       (match po.2 with
        | .dict opsd => opsd.flatMap (fun ms =>
            match ms.2 with
            | .dict specd => ((r"Method: ").toList ++ ms.1) :: opParts specd
            | _ => [])
        | _ => []))
   | _ => []) ++
  (match dictGetD dd ((r"components").toList) (.dict []) with
   | .dict comp => extract_schemas (dictGetD comp ((r"schemas").toList) (.dict []))
   | _ => []) ++
  (match dictGetD dd ((r"definitions").toList) (.dict []) with
   | .dict defs => extract_schemas (.dict defs)
   | _ => [])

def joinedParts (dd : List (List Char × PyVal)) : List Char :=
  List.intercalate ['\n']
    ((extractParts dd).filter (fun x => !x.isEmpty && !(pyStrip x).isEmpty))

/-- `extract_text_from_openapi(raw)`: on a failed parse or a non-mapping
tree return `raw` verbatim; on a mapping walk info, paths (operations,
parameters, request body, responses), `components.schemas` and
`definitions`, join the non-blank fragments with newlines, and fall back
to `raw` when the joined text is blank. -/
def extract_text_from_openapi (parse : List Char → Option PyVal)
    (raw : List Char) : List Char :=
  match parse raw with
  | Option.none => raw
  | some data =>
    match data with
    | .dict dd =>
      let txt := joinedParts dd
      if (pyStrip txt).isEmpty then raw else txt
    | _ => raw


/-- C9: the extractor never fails: a failed parse or a non-mapping tree
returns the raw input verbatim; a non-empty raw input always produces a
non-empty output (falling back to raw when the recognized sections yield
nothing); and the output is deterministic in the parsed tree — two parses
producing the same mapping produce the same output whenever the walk
yields non-blank text. -/
theorem extractor_never_fails :
    (∀ (parse : List Char → Option PyVal) (raw : List Char),
      parse raw = Option.none → extract_text_from_openapi parse raw = raw) ∧
    (∀ (parse : List Char → Option PyVal) (raw : List Char) (v : PyVal),
      parse raw = some v → (∀ dd, v ≠ .dict dd) →
      extract_text_from_openapi parse raw = raw) ∧
    (∀ (parse : List Char → Option PyVal) (raw : List Char),
      raw ≠ [] → extract_text_from_openapi parse raw ≠ []) ∧
    (∀ (parse₁ parse₂ : List Char → Option PyVal) (raw₁ raw₂ : List Char)
        (dd : List (List Char × PyVal)),
      parse₁ raw₁ = some (.dict dd) → parse₂ raw₂ = some (.dict dd) →
      (pyStrip (joinedParts dd)).isEmpty = false →
      extract_text_from_openapi parse₁ raw₁
        = extract_text_from_openapi parse₂ raw₂) := by
  refine ⟨?_, ?_, ?_, ?_⟩
  · intro parse raw h
    simp [extract_text_from_openapi, h]
  · intro parse raw v h hne
    cases v with
    | dict dd => exact absurd rfl (hne dd)
    | none => simp [extract_text_from_openapi, h]
    | bool b => simp [extract_text_from_openapi, h]
    | int n => simp [extract_text_from_openapi, h]
    | float q => simp [extract_text_from_openapi, h]
    | str s => simp [extract_text_from_openapi, h]
    | list l => simp [extract_text_from_openapi, h]
  · intro parse raw hraw
    rw [extract_text_from_openapi]
    cases hp : parse raw with
    | none => exact hraw
    | some v =>
      cases v with
      | dict dd =>
        dsimp only
        by_cases hstrip : (pyStrip (joinedParts dd)).isEmpty
        · rw [if_pos hstrip]; exact hraw
        · rw [if_neg hstrip]
          intro hnil
          rw [hnil] at hstrip
          exact hstrip rfl
      | none => exact hraw
      | bool b => exact hraw
      | int n => exact hraw
      | float q => exact hraw
      | str s => exact hraw
      | list l => exact hraw
  · intro parse₁ parse₂ raw₁ raw₂ dd h1 h2 hne
    rw [extract_text_from_openapi, extract_text_from_openapi, h1, h2]
    dsimp only
    rw [if_neg (by simp [hne]), if_neg (by simp [hne])]

/-- Witness for `extractor_never_fails`: every parser failing on `"a"`
returns it verbatim, hence non-empty. -/
theorem extractor_never_fails_witness :
    (['a'] : List Char) ≠ [] ∧
    extract_text_from_openapi (fun _ => Option.none) ['a'] ≠ [] :=
  ⟨by decide,
    extractor_never_fails.2.2.1 (fun _ => Option.none) ['a'] (by decide)⟩


/-! ## Ingest endpoint (src/app/routers.py, `ingest`)

The handler is a pure function of the parse oracle, the result of the
optional URL fetch, and the embedding-service oracle.  Its effects on the
two backends are the returned `World`; the actions it performed before
returning are traced so that "aborts before any embedding call or backend
write" is a statement about the trace. -/

/-- The `backend` field of `IngestRequest`
(pattern `^(pg|chroma|both)$`). -/
inductive Backend where
  | pg
  | chroma
  | both
deriving DecidableEq

/-- `IngestRequest` of src/app/schemas.py (source plus optional text, url
and chunking overrides). -/
structure IngestRequest where
  source : List Char
  text : Option (List Char)
  url : Option (List Char)
  backend : Backend
  chunk_size : Option Nat
  chunk_overlap : Option Nat

/-- The two backends' contents. -/
structure World where
  pg : List (PgRow (List ℝ))
  chroma : ChromaDB (List ℝ)

/-- The ways `ingest` can fail; the two `HTTPException(400, …)` cases are
caller-visible input errors, the other two are exceptions that propagate
out of the handler. -/
inductive IngestError where
  | missingInput
  | chunkingEmpty
  | fetchFailed
  | embedFailed (e : EmbedErr)
deriving DecidableEq

/-- The HTTP status of the `HTTPException` raised for an error, if any. -/
def IngestError.httpStatus? : IngestError → Option Nat
  | .missingInput => some 400
  | .chunkingEmpty => some 400
  | _ => Option.none

/-- Externally visible side effects of one ingest call, in order. -/
inductive IngestAction where
  | embed
  | pgWrite
  | chromaWrite
deriving DecidableEq

/-- The successful response body (latency fields are wall-clock and not
modelled). -/
structure IngestOut where
  source : List Char
  num_chunks : Nat
deriving DecidableEq

/-- Python `x or default` on the optional chunking overrides (`0` is
falsy). -/
def pyOrNat (o : Option Nat) (dflt : Nat) : Nat :=
  match o with
  | some n => if n = 0 then dflt else n
  | Option.none => dflt

/-- Python truthiness of an optional string (`None` and `""` are falsy). -/
def optTruthy (o : Option (List Char)) : Bool :=
  match o with
  | some s => !s.isEmpty
  | Option.none => false

/-- The `POST /ingest` handler: validate that text or url is given, fetch
raw text, extract, chunk (with the `or`-defaulted sizes), abort with a 400
if no chunks remain, embed with `max_retries = 5` (the call-site default),
then write to the selected backends (relational replace, vector-store
upsert). -/
noncomputable def ingest (parse : List Char → Option PyVal)
    (fetch : Except Unit (List Char)) (embedOracle : Nat → Nat → Response)
    (CHUNK_SIZE CHUNK_OVERLAP EMBED_DIM : Nat) (req : IngestRequest)
    (w : World) :
    Except IngestError IngestOut × World × List IngestAction :=
  if !optTruthy req.text && !optTruthy req.url then
    (.error .missingInput, w, [])
  else
    match (match req.text with
           | some t => Except.ok t
           | Option.none => fetch) with
    | .error _ => (.error .fetchFailed, w, [])
    | .ok raw =>
      let extracted := extract_text_from_openapi parse raw
      let chunks := chunk_text extracted (pyOrNat req.chunk_size CHUNK_SIZE)
        (pyOrNat req.chunk_overlap CHUNK_OVERLAP)
      if chunks.isEmpty then
        (.error .chunkingEmpty, w, [])
      else
        match (ollama_embed embedOracle EMBED_DIM chunks 5).2 with
        | .error e => (.error (.embedFailed e), w, [.embed])
        | .ok embeds =>
          let w1 := if req.backend = .pg ∨ req.backend = .both then
              { w with pg := replace_source req.source chunks embeds w.pg }
            else w
          let w2 := if req.backend = .chroma ∨ req.backend = .both then
              { w1 with
                chroma := upsert_source req.source chunks embeds w1.chroma }
            else w1
          (.ok ⟨req.source, chunks.length⟩, w2,
            [IngestAction.embed] ++
            (if req.backend = .pg ∨ req.backend = .both
             then [IngestAction.pgWrite] else []) ++
            (if req.backend = .chroma ∨ req.backend = .both
             then [IngestAction.chromaWrite] else []))

/-- C8: an ingest request that passes the input check and whose extraction
and chunking produce zero chunks aborts with the caller-visible 400
"ChunkingEmpty" error, with no embedding call and no backend write — the
returned world is the input world and the action trace is empty. -/
theorem empty_chunks_aborts_before_writes
    (parse : List Char → Option PyVal) (fetch : Except Unit (List Char))
    (embedOracle : Nat → Nat → Response) (CS CO ED : Nat)
    (req : IngestRequest) (w : World) (raw : List Char)
    (hinput : (optTruthy req.text || optTruthy req.url) = true)
    (hraw : (match req.text with
             | some t => Except.ok t
             | Option.none => fetch) = Except.ok raw)
    (hchunks : chunk_text (extract_text_from_openapi parse raw)
      (pyOrNat req.chunk_size CS) (pyOrNat req.chunk_overlap CO) = []) :
    ingest parse fetch embedOracle CS CO ED req w
      = (.error .chunkingEmpty, w, []) ∧
    IngestError.httpStatus? .chunkingEmpty = some 400 := by
  constructor
  · rw [ingest]
    have hguard : (!optTruthy req.text && !optTruthy req.url) = false := by
      rcases Bool.or_eq_true_iff.mp hinput with h | h <;> simp [h]
    rw [hguard]
    simp only [Bool.false_eq_true, if_false, hraw]
    simp [hchunks]
  · rfl

/-- Witness for `empty_chunks_aborts_before_writes`: whitespace-only text
(with the default chunking config 1200/150) yields zero chunks and a clean
400 abort. -/
theorem empty_chunks_aborts_before_writes_witness :
    (optTruthy (some [' ']) || optTruthy Option.none) = true ∧
    ingest (fun _ => Option.none) (Except.ok []) (fun _ _ => Response.exc)
        1200 150 768
        ⟨['s'], some [' '], Option.none, Backend.both, Option.none,
          Option.none⟩ ⟨[], []⟩
      = (.error .chunkingEmpty, (⟨[], []⟩ : World), []) :=
  ⟨by decide,
    (empty_chunks_aborts_before_writes (fun _ => Option.none) (Except.ok [])
      (fun _ _ => Response.exc) 1200 150 768
      ⟨['s'], some [' '], Option.none, Backend.both, Option.none, Option.none⟩
      ⟨[], []⟩ [' '] (by decide) rfl (by decide)).1⟩

/-! ## Stream broadcaster (src/app/benchmark_streaming.py,
`event_generator` in `stream_benchmark`)

The polling loop is embedded over the finite list of run-state snapshots
the observer's successive polls see (one element per 0.5 s iteration;
`Option.none` means the run id vanished from the registry, which breaks the
loop).  Fields the loop reads through `.get` defaults are materialized in
the snapshot.  `times k` is the `datetime.utcnow().isoformat()` of
iteration `k`.  The final event's payload type `FinalData` has no results
field at all — the code deliberately omits the result rows from the
terminal event. -/

/-- One observed value of a run-registry entry. -/
structure Snapshot where
  status : List Char
  current_progress : ℤ
  total_runs : ℤ
  sub_progress : ℚ
  overall_progress_pct : ℚ
  phase : List Char
  last_message : List Char
deriving DecidableEq

/-- Payload of a change event (no results field). -/
structure ChangeData where
  benchmark_id : List Char
  status : List Char
  progress : ℤ
  total : ℤ
  sub_progress : ℚ
  overall_progress_pct : ℚ
  phase : List Char
  last_message : List Char
  timestamp : List Char
deriving DecidableEq

/-- Payload of the terminal event: carries the fixed completion message
and, by its very type, no result payload. -/
structure FinalData where
  benchmark_id : List Char
  status : List Char
  progress : ℤ
  total : ℤ
  last_message : List Char
  timestamp : List Char
  message : List Char
deriving DecidableEq

inductive SSEEvent where
  | change (d : ChangeData)
  | final (d : FinalData)
deriving DecidableEq

def mkChange (id ts : List Char) (st : Snapshot) : ChangeData :=
  ⟨id, st.status, st.current_progress, st.total_runs, st.sub_progress,
    st.overall_progress_pct, st.phase, st.last_message, ts⟩

def mkFinal (id ts : List Char) (st : Snapshot) : FinalData :=
  ⟨id, st.status, st.current_progress, st.total_runs,
    (r"Benchmark finished").toList, ts, (r"Benchmark finished").toList⟩

/-- The generator's loop variables (`last_progress = -1`,
`last_sub_progress = -1.0`, `last_message = \"\"`, `first_event = True`). -/
structure GenSt where
  last_progress : ℤ
  last_sub_progress : ℚ
  last_message : List Char
  first_event : Bool
deriving DecidableEq

def initGenSt : GenSt := ⟨-1, -1, [], true⟩

def terminalStatus (s : List Char) : Bool :=
  s == (r"completed").toList || s == (r"failed").toList

/-- The SSE generator loop: emit a change event when it is the first
iteration or the (progress, sub-progress, message) tuple changed; then, if
the status is terminal, emit exactly one final event and stop; otherwise
sleep and poll again. -/
def event_generator (id : List Char) (times : Nat → List Char) :
    GenSt → Nat → List (Option Snapshot) → List SSEEvent
  | _, _, [] => []
  | _, _, (Option.none :: _) => []
  | gs, k, (some st :: rest) =>
    let changed := gs.first_event
      || st.current_progress != gs.last_progress
      || st.sub_progress != gs.last_sub_progress
      || st.last_message != gs.last_message
    let evs : List SSEEvent :=
      if changed then [.change (mkChange id (times k) st)] else []
    let gs' := if changed then
        (⟨st.current_progress, st.sub_progress, st.last_message, false⟩ : GenSt)
      else gs
    if terminalStatus st.status then
      evs ++ [.final (mkFinal id (times k) st)]
    else
      evs ++ event_generator id times gs' (k + 1) rest

def isFinal : SSEEvent → Bool
  | .final _ => true
  | .change _ => false

/-- C7: an observer receives exactly one event immediately on connect
regardless of the run's state (the first element of the stream is the
change event for the first snapshot); afterwards an iteration whose
(current_run, sub_progress, message) tuple equals the last emitted one
emits nothing; and a terminal snapshot ends the stream — independently of
any later snapshots — with exactly one final event (optionally preceded by
one last change event), whose payload type carries no results; over a whole
run of non-terminal snapshots followed by a terminal one, exactly one
final event is emitted. -/
theorem stream_events_spec :
    (∀ (id : List Char) (times : Nat → List Char) (st : Snapshot)
        (rest : List (Option Snapshot)),
      (event_generator id times initGenSt 0 (some st :: rest)).head?
        = some (.change (mkChange id (times 0) st))) ∧
    (∀ (id : List Char) (times : Nat → List Char) (gs : GenSt) (k : Nat)
        (st : Snapshot) (rest : List (Option Snapshot)),
      gs.first_event = false →
      st.current_progress = gs.last_progress →
      st.sub_progress = gs.last_sub_progress →
      st.last_message = gs.last_message →
      terminalStatus st.status = false →
      event_generator id times gs k (some st :: rest)
        = event_generator id times gs (k + 1) rest) ∧
    (∀ (id : List Char) (times : Nat → List Char) (gs : GenSt) (k : Nat)
        (st : Snapshot) (rest : List (Option Snapshot)),
      terminalStatus st.status = true →
      ∃ pre, (pre = [] ∨ ∃ c, pre = [SSEEvent.change c]) ∧
        event_generator id times gs k (some st :: rest)
          = pre ++ [.final (mkFinal id (times k) st)]) ∧
    (∀ (id : List Char) (times : Nat → List Char) (snaps : List Snapshot)
        (gs : GenSt) (k : Nat) (st : Snapshot)
        (rest : List (Option Snapshot)),
      (∀ s ∈ snaps, terminalStatus s.status = false) →
      terminalStatus st.status = true →
      ((event_generator id times gs k
          (snaps.map some ++ some st :: rest)).filter isFinal).length = 1) := by
  have hstep : ∀ (id : List Char) (times : Nat → List Char) (gs : GenSt)
      (k : Nat) (st : Snapshot) (rest : List (Option Snapshot)),
      event_generator id times gs k (some st :: rest)
        = (let changed := gs.first_event
            || st.current_progress != gs.last_progress
            || st.sub_progress != gs.last_sub_progress
            || st.last_message != gs.last_message
           let evs : List SSEEvent :=
             if changed then [.change (mkChange id (times k) st)] else []
           let gs' := if changed then
               (⟨st.current_progress, st.sub_progress, st.last_message,
                 false⟩ : GenSt)
             else gs
           if terminalStatus st.status then
             evs ++ [.final (mkFinal id (times k) st)]
           else
             evs ++ event_generator id times gs' (k + 1) rest) :=
    fun _ _ _ _ _ _ => rfl
  refine ⟨?_, ?_, ?_, ?_⟩
  · intro id times st rest
    rw [hstep]
    have hch : (initGenSt.first_event
        || st.current_progress != initGenSt.last_progress
        || st.sub_progress != initGenSt.last_sub_progress
        || st.last_message != initGenSt.last_message) = true := by
      simp [initGenSt]
    simp only [hch, if_true]
    by_cases ht : terminalStatus st.status <;> simp [ht]
  · intro id times gs k st rest h1 h2 h3 h4 h5
    rw [hstep]
    have hch : (gs.first_event
        || st.current_progress != gs.last_progress
        || st.sub_progress != gs.last_sub_progress
        || st.last_message != gs.last_message) = false := by
      simp [h1, h2, h3, h4]
    simp only [hch, h5]
    simp
  · intro id times gs k st rest ht
    rw [hstep]
    dsimp only
    by_cases hch : (gs.first_event
        || st.current_progress != gs.last_progress
        || st.sub_progress != gs.last_sub_progress
        || st.last_message != gs.last_message)
    · refine ⟨[.change (mkChange id (times k) st)], Or.inr ⟨_, rfl⟩, ?_⟩
      simp [hch, ht]
    · refine ⟨[], Or.inl rfl, ?_⟩
      simp only [Bool.not_eq_true] at hch
      simp [hch, ht]
  · intro id times snaps
    induction snaps with
    | nil =>
      intro gs k st rest hns ht
      rw [List.map_nil, List.nil_append, hstep]
      dsimp only
      rw [if_pos ht]
      by_cases hch : (gs.first_event
          || st.current_progress != gs.last_progress
          || st.sub_progress != gs.last_sub_progress
          || st.last_message != gs.last_message) = true
      · rw [if_pos hch, List.filter_append]
        simp [isFinal]
      · rw [if_neg hch, List.filter_append]
        simp [isFinal]
    | cons s snaps ih =>
      intro gs k st rest hns ht
      rw [List.map_cons, List.cons_append, hstep]
      dsimp only
      have hs : terminalStatus s.status = false := hns s (by simp)
      rw [hs]
      simp only [Bool.false_eq_true, if_false]
      by_cases hch : (gs.first_event
          || s.current_progress != gs.last_progress
          || s.sub_progress != gs.last_sub_progress
          || s.last_message != gs.last_message) = true
      · rw [if_pos hch, if_pos hch, List.filter_append]
        have hpre1 : List.filter isFinal
            [SSEEvent.change (mkChange id (times k) s)] = [] := by
          simp [isFinal]
        rw [hpre1, List.nil_append]
        exact ih _ (k + 1) st rest (fun x hx => hns x (by simp [hx])) ht
      · rw [if_neg hch, if_neg hch, List.filter_append, List.filter_nil,
          List.nil_append]
        exact ih gs (k + 1) st rest (fun x hx => hns x (by simp [hx])) ht


/-- Witness for `stream_events_spec`: an observer connecting to an
already-completed run gets a stream that ends with the single final
event. -/
theorem stream_events_spec_witness :
    terminalStatus ((r"completed").toList) = true ∧
    ∃ pre, (pre = [] ∨ ∃ c, pre = [SSEEvent.change c]) ∧
      event_generator [] (fun _ => []) initGenSt 0
          [some ⟨(r"completed").toList, 2, 9, 0, 0, [], []⟩]
        = pre ++ [.final (mkFinal [] []
            ⟨(r"completed").toList, 2, 9, 0, 0, [], []⟩)] :=
  ⟨by decide,
    stream_events_spec.2.2.1 [] (fun _ => []) initGenSt 0
      ⟨(r"completed").toList, 2, 9, 0, 0, [], []⟩ [] (by decide)⟩

end Spec2Proof
